import Mathlib

/-
Verification of the batch-inference and result-caching pipeline of
`src/evaluate_paraphrase_detection_wmt19_paraphrases_de_en.py`.

The Python source is shallowly embedded below.  Pure helpers (substring
tests, the `(ML)([0-9]*)` regex search, path manipulation, batching,
softmax) are translated as executable Lean functions; the stateful
orchestrator (`main`) is translated as explicit state passing in an
`Except` monad whose error constructors model the Python exceptions that
abort the run.  The pretrained model and the tokenizer are external
capabilities in the source (loaded from disk by `transformers`), so they
are parameters of the embedding.

Ghost instrumentation: values of type `PVec` and result fields of type
`RVal` carry natural-number provenance tags (`computedAt`, `writtenAt`),
and the orchestrator additionally accumulates a `LogEntry` list recording,
for every (checkpoint, file, direction) step, whether the inference engine
was invoked and which vector was written.  These tags and the log are pure
bookkeeping: they record indices of the enclosing loops and are never
inspected by any branch of the embedded control flow, so erasing them
yields exactly the source's data flow.
-/

/-! ## String utilities: Python `in` (substring), `os.path`, and the regex -/

/-- Boolean test that `n` is a prefix of `l` (character lists). -/
def startsWithL : List Char → List Char → Bool
  | [], _ => true
  | _ :: _, [] => false
  | a :: as, b :: bs => a = b && startsWithL as bs

/-- Boolean test that `n` occurs as a contiguous substring of `l`. -/
def hasSubL (n : List Char) : List Char → Bool
  | [] => n.isEmpty
  | c :: cs => startsWithL n (c :: cs) || hasSubL n cs

/-- Python's `n in s` substring test on strings. -/
def containsSub (n s : String) : Bool :=
  hasSubL n.data s.data

/-- Search for the first occurrence of `"ML"` and return the (possibly
empty) maximal digit run following it, as `re.search(r"(ML)([0-9]*)", s)`
returns its second group; `none` models `re.search` returning `None`. -/
def findML : List Char → Option (List Char)
  | [] => none
  | c :: cs =>
    if startsWithL ['M', 'L'] (c :: cs) then some ((cs.drop 1).takeWhile Char.isDigit)
    else findML cs

/-- Decimal digits to a natural number, as Python `int` on a digit string. -/
def digitsToNat (ds : List Char) : ℕ :=
  ds.foldl (fun a c => 10 * a + (c.toNat - 48)) 0

/-- Exceptions that abort the Python run. -/
inductive RunErr where
  /-- `re.search(...)` returned `None` and `.groups()` was taken on it. -/
  | attributeError : RunErr
  /-- `int("")` on an empty digit group. -/
  | valueError : RunErr
  /-- `preds` referenced before assignment (UnboundLocalError). -/
  | nameError : RunErr
  /-- `scipy.special.softmax` applied to `None` (no batch was processed). -/
  | typeError : RunErr
  /-- `preds[j]` with `j` past the end of the cached list. -/
  | indexError : RunErr
deriving DecidableEq, Repr

/-- Line 183 of the source:
`max_seq_length = int(re.search(r"(ML)([0-9]*)", metadata).groups()[1])`.
A metadata string without `"ML"` raises `AttributeError` (search returned
`None`); `"ML"` followed by no digit raises `ValueError` (`int("")`). -/
def parseMaxSeqLength (metadata : String) : Except RunErr ℕ :=
  match findML metadata.data with
  | none => .error .attributeError
  | some [] => .error .valueError
  | some (d :: ds) => .ok (digitsToNat (d :: ds))

/-- Specification-side predicate: the string contains an occurrence of
`"ML"` immediately followed by at least one decimal digit. -/
def containsMLDigit : List Char → Bool
  | [] => false
  | c :: cs =>
    (startsWithL ['M', 'L'] (c :: cs) &&
      (match cs.drop 1 with
       | d :: _ => d.isDigit
       | [] => false)) || containsMLDigit cs

/-- Split a character list on a separator character, as `str.split`. -/
def splitOnChar (sep : Char) : List Char → List (List Char)
  | [] => [[]]
  | a :: as =>
    match splitOnChar sep as with
    | [] => if a = sep then [[], []] else [[a]]
    | g :: gs => if a = sep then [] :: g :: gs else (a :: g) :: gs

/-- Join path components with `'/'`, inverse of splitting. -/
def joinSlash : List (List Char) → List Char
  | [] => []
  | [g] => g
  | g :: g' :: gs => g ++ '/' :: joinSlash (g' :: gs)

/-- Model of `os.path.dirname` for slash-separated paths. -/
def dirname (p : String) : String :=
  ⟨joinSlash ((splitOnChar '/' p.data).dropLast)⟩

/-- Model of `os.path.basename` for slash-separated paths. -/
def basename (p : String) : String :=
  ⟨(splitOnChar '/' p.data).getLastD []⟩

/-- Line 175: `metadata = os.path.basename(os.path.dirname(model_path))`. -/
def metadataOf (model_path : String) : String :=
  basename (dirname model_path)

example : containsSub "arp" "wmt_arp_file.json" = true := by decide
example : containsSub "wmtp" "arp_file.json" = false := by decide
example : parseMaxSeqLength "bert-base-ML128" = .ok 128 := rfl
example : parseMaxSeqLength "bert-base" = .error .attributeError := rfl
example : parseMaxSeqLength "bertML" = .error .valueError := rfl
example : metadataOf "out/bertML128/pytorch_model.bin" = "bertML128" := by decide
example : metadataOf "out/xlm-roberta-ML64/m" = "xlm-roberta-ML64" := by decide

/-! ## Data model -/

/-- A source/target pair of sentence strings inside a corpus record. -/
structure SentencePair where
  source : String
  target : String
deriving DecidableEq, Repr

/-- Ghost-tagged scalar result field: `val` is the stored probability;
`computedAt` is the index of the checkpoint whose model produced it and
`writtenAt` the index of the checkpoint during which it was stored.  The
two tags are bookkeeping only and never influence control flow. -/
structure RVal where
  val : ℝ
  computedAt : ℕ
  writtenAt : ℕ

/-- One record of a corpus json file: the fields read by
`prepare_prediction_data` plus the open-ended set of model-result fields
(`results`, an insertion-ordered association list as a Python dict). -/
structure CorpusRecord where
  sentence_original : SentencePair
  sentence_paraphrase : SentencePair
  gold_label : ℤ
  results : List (String × RVal)

/-- A corpus file's store: keys in dict iteration (= insertion) order. -/
abbrev Store := List (String × CorpusRecord)

/-- An input json file: its basename and its parsed store. -/
structure FileEntry where
  name : String
  store : Store

/-- The fields of `paws_x.utils.InputExample` used by the script. -/
structure InputExample where
  guid : String
  text_a : String
  text_b : String
  language : String
  label : String
deriving DecidableEq, Repr

/-- A tokenized feature row (`paws_x.utils` `InputFeatures`): the three
positional arrays plus the integer-coded label. -/
structure Feature where
  input_ids : List ℕ
  attention_mask : List ℕ
  token_type_ids : List ℕ
  label : ℕ
deriving DecidableEq, Repr

/-- An external tokenizer: encodes a sentence pair into token ids and
segment ids, and designates a padding id.  Loaded from the checkpoint by
`transformers`; opaque to this development. -/
structure Tokenizer where
  encodePair : String → String → List ℕ × List ℕ
  padId : ℕ

/-- Modelled from the spec: `convert_examples_to_features` lives in
`src/paws_x/utils`, which is not part of the given source tree.  Per
section 4.1 of the spec it tokenizes `text_a`/`text_b`, truncates
deterministically to `max_seq_length`, right-pads with the tokenizer's
padding id (`pad_on_left=False`, `pad_token_segment_id=0`), builds the
attention mask marking only real token positions, and passes the label
through as its index in `label_list=["0","1"]`. -/
def featurize (tok : Tokenizer) (maxLen : ℕ) (ex : InputExample) : Feature :=
  let enc := tok.encodePair ex.text_a ex.text_b
  let ids := enc.1.take maxLen
  let segs := enc.2.take maxLen
  { input_ids := ids ++ List.replicate (maxLen - ids.length) tok.padId
    attention_mask := List.replicate ids.length 1 ++ List.replicate (maxLen - ids.length) 0
    token_type_ids := segs ++ List.replicate (maxLen - segs.length) 0
    label := if ex.label = "1" then 1 else 0 }

/-- Lines 66-71: the source-language example built from one record. -/
def mkSourceExample (kv : String × CorpusRecord) : InputExample :=
  { guid := kv.1
    text_a := kv.2.sentence_original.source
    text_b := kv.2.sentence_paraphrase.source
    language := "de"
    label := toString kv.2.gold_label }

/-- Lines 72-78: the target-language example built from one record. -/
def mkTargetExample (kv : String × CorpusRecord) : InputExample :=
  { guid := kv.1
    text_a := kv.2.sentence_original.target
    text_b := kv.2.sentence_paraphrase.target
    language := "en"
    label := toString kv.2.gold_label }

/-- Lines 47-103, `prepare_prediction_data`: one pass over the store's
keys appends a source and a target example per key, then each example
list is featurized into one prediction group; the returned list is
`[source group, target group]`. -/
def prepare_prediction_data (store : Store) (tok : Tokenizer) (maxLen : ℕ) :
    List (List Feature) :=
  let exs := store.foldl
    (fun (acc : List InputExample × List InputExample) kv =>
      (acc.1 ++ [mkSourceExample kv], acc.2 ++ [mkTargetExample kv]))
    ([], [])
  [exs.1.map (featurize tok maxLen), exs.2.map (featurize tok maxLen)]

/-- The source-direction prediction group of a store, in key order. -/
def srcFeatures (store : Store) (tok : Tokenizer) (maxLen : ℕ) : List Feature :=
  store.map (fun kv => featurize tok maxLen (mkSourceExample kv))

/-- The target-direction prediction group of a store, in key order. -/
def tgtFeatures (store : Store) (tok : Tokenizer) (maxLen : ℕ) : List Feature :=
  store.map (fun kv => featurize tok maxLen (mkTargetExample kv))

lemma prepare_fold_eq (store : Store) :
    ∀ a b : List InputExample,
      store.foldl
        (fun (acc : List InputExample × List InputExample) kv =>
          (acc.1 ++ [mkSourceExample kv], acc.2 ++ [mkTargetExample kv]))
        (a, b)
      = (a ++ store.map mkSourceExample, b ++ store.map mkTargetExample) := by
  induction store with
  | nil => intro a b; simp
  | cons kv rest ih =>
    intro a b
    simp only [List.foldl_cons, ih, List.map_cons]
    simp

/-- Shared characterization of `prepare_prediction_data`: exactly two
groups, source first, target second, features in key iteration order. -/
lemma prepare_eq (store : Store) (tok : Tokenizer) (maxLen : ℕ) :
    prepare_prediction_data store tok maxLen
      = [srcFeatures store tok maxLen, tgtFeatures store tok maxLen] := by
  simp only [prepare_prediction_data, prepare_fold_eq, List.nil_append,
    srcFeatures, tgtFeatures, List.map_map]
  rfl

/-! ## InferenceEngine: DataLoader batching, model inputs, softmax -/

/-- Sequential batching helper with structural fuel (the fuel is the
length of the list, so with a positive batch size it never runs out). -/
def chunkFuel (bs : ℕ) : ℕ → List α → List (List α)
  | _, [] => []
  | 0, _ :: _ => []
  | fuel + 1, x :: rest => (x :: rest).take bs :: chunkFuel bs fuel ((x :: rest).drop bs)

/-- `DataLoader` with a `SequentialSampler` (lines 206-209): consecutive
batches of size `bs` in input order, the last one possibly smaller.  A
batch size of zero is rejected by `DataLoader` at construction, modelled
as producing no batches. -/
def chunk (bs : ℕ) (xs : List α) : List (List α) :=
  if bs = 0 then [] else chunkFuel bs xs.length xs

/-- The keyword-argument dictionary built for `model(**inputs)` at lines
127-135.  `token_type_ids = none` means the key is absent from the
dictionary; `some none` means the key is present with value `None`. -/
structure ModelInputs where
  input_ids : List (List ℕ)
  attention_mask : List (List ℕ)
  labels : List ℕ
  token_type_ids : Option (Option (List (List ℕ)))
deriving DecidableEq, Repr

/-- Lines 127-135: the dictionary holds `input_ids`, `attention_mask`
and `labels`; unless the model type is `"distilbert"` the key
`token_type_ids` is also inserted, with the batch's segment ids for
`"bert"` and with `None` otherwise. -/
def buildInputs (model_type : String) (batch : List Feature) : ModelInputs :=
  { input_ids := batch.map Feature.input_ids
    attention_mask := batch.map Feature.attention_mask
    labels := batch.map Feature.label
    token_type_ids :=
      if model_type ≠ "distilbert" then
        some (if model_type = "bert" then some (batch.map Feature.token_type_ids) else none)
      else none }

/-- An external classification model: given the keyword arguments it
returns one pair of 2-class logits per input row.  Opaque capability. -/
abbrev Model := ModelInputs → List (ℝ × ℝ)

/-- Row-wise softmax mass of the positive class (`softmax(preds, axis=1)[:, 1]`). -/
noncomputable def softmaxPos (a b : ℝ) : ℝ :=
  Real.exp b / (Real.exp a + Real.exp b)

/-- Row-wise softmax mass of the negative class (`softmax(preds, axis=1)[:, 0]`). -/
noncomputable def softmaxNeg (a b : ℝ) : ℝ :=
  Real.exp a / (Real.exp a + Real.exp b)

/-- Lines 122-141, the batch loop of `predict`: `preds` starts as `None`;
the first batch's logits replace it and later batches are appended along
axis 0 (`np.append(..., axis=0)`). -/
noncomputable def accumLogits (model : Model) (model_type : String) :
    List (List Feature) → Option (List (ℝ × ℝ)) → Option (List (ℝ × ℝ))
  | [], acc => acc
  | b :: rest, acc =>
    let logits := model (buildInputs model_type b)
    match acc with
    | none => accumLogits model model_type rest (some logits)
    | some prev => accumLogits model model_type rest (some (prev ++ logits))

/-- Lines 106-142, `predict`: batch the dataset sequentially, run the
model on each batch, accumulate logits, and return the row-wise positive
class softmax mass.  If no batch was processed the accumulator is still
`None` and `scipy.special.softmax(None, axis=1)` raises, modelled by
`none`. -/
noncomputable def predict (model : Model) (model_type : String)
    (dataset : List Feature) (bs : ℕ) : Option (List ℝ) :=
  match accumLogits model model_type (chunk bs dataset) none with
  | none => none
  | some ls => some (ls.map (fun q => softmaxPos q.1 q.2))

/-! ## Orchestrator: cache policy, result merging, and the nested loops -/

/-- A probability vector (`preds.tolist()`) with its ghost provenance:
the index of the checkpoint whose model computed it. -/
structure PVec where
  vec : List ℝ
  computedAt : ℕ

/-- The two cache slots, reset at lines 192-193 on entry to each
checkpoint iteration: `wmt_source_cache = None; ar_source_cache = None`. -/
structure CacheState where
  wmt_source_cache : Option PVec
  ar_source_cache : Option PVec

/-- Ghost record of one (checkpoint, file, direction) step: whether the
inference engine was invoked and which vector was written. -/
structure LogEntry where
  cp : ℕ
  fileIdx : ℕ
  dir : ℕ
  invoked : Bool
  written : List ℝ

/-- Per-checkpoint context: the loaded model, the inferred model type,
the batch size and the checkpoint metadata string. -/
structure Ctx where
  model : Model
  model_type : String
  bs : ℕ
  metadata : String

/-- Python `dict.update({key: v})`: replace in place if the key exists,
otherwise append at the end. -/
def updateField (r : List (String × RVal)) (key : String) (v : RVal) :
    List (String × RVal) :=
  if r.any (fun q => q.1 = key) then
    r.map (fun q => if q.1 = key then (key, v) else q)
  else r ++ [(key, v)]

/-- Line 226: `store[key].update({entry: preds[j]})` on one record. -/
def setResult (rec : CorpusRecord) (key : String) (v : RVal) : CorpusRecord :=
  { rec with results := updateField rec.results key v }

/-- Lines 223-224: `entry = "%s_%s" % (metadata, "source" if i == 0 else "target")`. -/
def entryName (metadata : String) (i : ℕ) : String :=
  metadata ++ "_" ++ (if i = 0 then "source" else "target")

/-- The vector a log entry records as written (empty when nothing was). -/
def vecOf : Option PVec → List ℝ
  | none => []
  | some pv => pv.vec

/-- Lines 225-226, the write loop `for j, key in enumerate(store.keys())`:
if `preds` was never assigned (`none`) the first iteration raises
`NameError` (so an empty store raises nothing); if the vector is shorter
than the store, `preds[j]` raises `IndexError`; otherwise record `j`
gains the field `entry` with value `preds[j]`.  `k` is the ghost index of
the current checkpoint. -/
def writeEntry (store : Store) (entry : String) (p : Option PVec) (k : ℕ) :
    Except RunErr Store :=
  match p with
  | none => if store.isEmpty then .ok store else .error .nameError
  | some pv =>
    if store.length ≤ pv.vec.length then
      .ok ((store.zip pv.vec).map
        (fun q => (q.1.1, setResult q.1.2 entry ⟨q.2, pv.computedAt, k⟩)))
    else .error .indexError

/-- Output of one direction step. -/
structure StepOut where
  store : Store
  caches : CacheState
  preds : Option PVec
  entry : LogEntry

/-- Lines 201-226, the body of `for i, eval_dataset in enumerate(...)`:
the three-way caching conditional, the optional prediction and cache
fill, and the write loop.  `k` and `fi` are the ghost checkpoint and file
indices. -/
noncomputable def stepDirection (c : Ctx) (k fi : ℕ) (filename : String) (i : ℕ)
    (ds : List Feature) (store : Store) (s : CacheState) (p : Option PVec) :
    Except RunErr StepOut :=
  if i = 1 ∨ (containsSub "arp" filename ∧ s.ar_source_cache.isNone)
      ∨ (containsSub "wmtp" filename ∧ s.wmt_source_cache.isNone) then
    match predict c.model c.model_type ds c.bs with
    | none => .error .typeError
    | some v =>
      match writeEntry store (entryName c.metadata i) (some ⟨v, k⟩) k with
      | .error e => .error e
      | .ok store' =>
        .ok ⟨store',
          (if i = 0 then
            if containsSub "arp" filename then { s with ar_source_cache := some ⟨v, k⟩ }
            else if containsSub "wmtp" filename then { s with wmt_source_cache := some ⟨v, k⟩ }
            else s
          else s),
          some ⟨v, k⟩, ⟨k, fi, i, true, v⟩⟩
  else
    match writeEntry store (entryName c.metadata i)
        (if containsSub "arp" filename then s.ar_source_cache
         else if containsSub "wmtp" filename then s.wmt_source_cache else p) k with
    | .error e => .error e
    | .ok store' =>
      .ok ⟨store', s,
        (if containsSub "arp" filename then s.ar_source_cache
         else if containsSub "wmtp" filename then s.wmt_source_cache else p),
        ⟨k, fi, i, false,
          vecOf (if containsSub "arp" filename then s.ar_source_cache
                 else if containsSub "wmtp" filename then s.wmt_source_cache else p)⟩⟩

/-- Output of processing the direction list of one file. -/
structure DirOut where
  store : Store
  caches : CacheState
  preds : Option PVec
  log : List LogEntry

/-- The loop `for i, eval_dataset in enumerate(eval_datasets)` itself,
generic in the running index `i`. -/
noncomputable def dirLoop (c : Ctx) (k fi : ℕ) (filename : String) (i : ℕ)
    (dss : List (List Feature)) (store : Store) (s : CacheState) (p : Option PVec)
    (log : List LogEntry) : Except RunErr DirOut :=
  match dss with
  | [] => .ok ⟨store, s, p, log⟩
  | ds :: rest =>
    match stepDirection c k fi filename i ds store s p with
    | .error e => .error e
    | .ok o => dirLoop c k fi filename (i + 1) rest o.store o.caches o.preds (log ++ [o.entry])

/-- Output of processing one file. -/
structure FileOut where
  file : FileEntry
  caches : CacheState
  preds : Option PVec
  log : List LogEntry

/-- Lines 194-228, the body of `for input_file in input_files`: read the
store, build the two prediction groups, run both direction steps, then
persist the enriched store back to the same file. -/
noncomputable def processFile (c : Ctx) (tok : Tokenizer) (maxLen : ℕ) (k fi : ℕ)
    (f : FileEntry) (s : CacheState) (p : Option PVec) (log : List LogEntry) :
    Except RunErr FileOut :=
  match dirLoop c k fi f.name 0 (prepare_prediction_data f.store tok maxLen)
      f.store s p log with
  | .error e => .error e
  | .ok o => .ok ⟨⟨f.name, o.store⟩, o.caches, o.preds, o.log⟩

/-- Output of one checkpoint iteration. -/
structure CPOut where
  files : List FileEntry
  caches : CacheState
  preds : Option PVec
  log : List LogEntry

/-- The inner file loop: files processed in order, each one persisted
before the next is read. -/
noncomputable def fileLoop (c : Ctx) (tok : Tokenizer) (maxLen : ℕ) (k : ℕ) (fi : ℕ)
    (fs : List FileEntry) (done : List FileEntry) (s : CacheState) (p : Option PVec)
    (log : List LogEntry) : Except RunErr CPOut :=
  match fs with
  | [] => .ok ⟨done, s, p, log⟩
  | f :: rest =>
    match processFile c tok maxLen k fi f s p log with
    | .error e => .error e
    | .ok o => fileLoop c tok maxLen k (fi + 1) rest (done ++ [o.file]) o.caches o.preds o.log

/-- Lines 174-228, the body of `for model_path in model_paths`: derive
the metadata and the model type, parse the maximum sequence length (a
failure here aborts the run), load model and tokenizer, reset both cache
slots to `None`, and run the file loop. -/
noncomputable def processCheckpoint (loadModel : String → Model)
    (loadTok : String → Tokenizer) (bs : ℕ) (k : ℕ) (model_path : String)
    (fs : List FileEntry) (p : Option PVec) (log : List LogEntry) :
    Except RunErr CPOut :=
  let metadata := metadataOf model_path
  let mt := if containsSub "xlm-roberta" metadata then "xlmr" else "bert"
  match parseMaxSeqLength metadata with
  | .error e => .error e
  | .ok maxLen =>
    fileLoop ⟨loadModel model_path, mt, bs, metadata⟩ (loadTok model_path) maxLen
      k 0 fs [] ⟨none, none⟩ p log

/-- Output of the whole run. -/
structure RunOut where
  files : List FileEntry
  preds : Option PVec
  log : List LogEntry

/-- The outer checkpoint loop; the `preds` variable and the (persisted)
files survive across checkpoints, the cache slots do not. -/
noncomputable def cpLoop (loadModel : String → Model) (loadTok : String → Tokenizer)
    (bs : ℕ) (k : ℕ) (cps : List String) (fs : List FileEntry) (p : Option PVec)
    (log : List LogEntry) : Except RunErr RunOut :=
  match cps with
  | [] => .ok ⟨fs, p, log⟩
  | cp :: rest =>
    match processCheckpoint loadModel loadTok bs k cp fs p log with
    | .error e => .error e
    | .ok o => cpLoop loadModel loadTok bs (k + 1) rest o.files o.preds o.log

/-- The whole of `main` after argument parsing: `preds` starts unbound
(`none`) and the run starts at the first checkpoint with an empty log. -/
noncomputable def runAll (loadModel : String → Model) (loadTok : String → Tokenizer)
    (bs : ℕ) (cps : List String) (fs : List FileEntry) : Except RunErr RunOut :=
  cpLoop loadModel loadTok bs 0 cps fs none []

/-! ## Concrete instances used by witnesses and counterexamples -/

/-- A toy model assigning logits `(0, 0)` to every row. -/
def tModel : Model := fun inp => inp.input_ids.map (fun _ => ((0 : ℝ), (0 : ℝ)))

/-- A toy tokenizer encoding every pair as one token with id 1. -/
def tTok : Tokenizer := ⟨fun _ _ => ([1], [0]), 0⟩

/-- A toy corpus record with no result fields yet. -/
def tRec : CorpusRecord := ⟨⟨"a", "b"⟩, ⟨"c", "d"⟩, 0, []⟩

/-- The feature `featurize tTok 1` produces from `tRec`'s examples. -/
def tFeat : Feature := ⟨[1], [1], [0], 0⟩

/-- A toy context (model type `"bert"`, batch size 1, metadata `"M"`). -/
def cCtx : Ctx := ⟨tModel, "bert", 1, "M"⟩

/-! ## InferenceEngine lemmas -/

lemma chunkFuel_sum {α : Type} (bs : ℕ) (hbs : 0 < bs) :
    ∀ (fuel : ℕ) (xs : List α), xs.length ≤ fuel →
      ((chunkFuel bs fuel xs).map List.length).sum = xs.length := by
  intro fuel
  induction fuel with
  | zero =>
    intro xs hxs
    cases xs with
    | nil => simp [chunkFuel]
    | cons x rest => simp at hxs
  | succ n ih =>
    intro xs hxs
    cases xs with
    | nil => simp [chunkFuel]
    | cons x rest =>
      have hdrop : ((x :: rest).drop bs).length ≤ n := by
        simp only [List.length_drop, List.length_cons]
        simp only [List.length_cons] at hxs
        omega
      simp only [chunkFuel, List.map_cons, List.sum_cons, ih _ hdrop,
        List.length_take, List.length_drop, List.length_cons]
      omega

lemma chunk_sum {α : Type} (bs : ℕ) (xs : List α) (hbs : 0 < bs) :
    ((chunk bs xs).map List.length).sum = xs.length := by
  unfold chunk
  rw [if_neg (Nat.pos_iff_ne_zero.mp hbs)]
  exact chunkFuel_sum bs hbs xs.length xs le_rfl

lemma chunk_zero {α : Type} (xs : List α) : chunk 0 xs = [] := by
  simp [chunk]

lemma accumLogits_some_len (model : Model) (mt : String)
    (hm : ∀ inp, (model inp).length = inp.input_ids.length) :
    ∀ (chunks : List (List Feature)) (a ls : List (ℝ × ℝ)),
      accumLogits model mt chunks (some a) = some ls →
      ls.length = a.length + (chunks.map List.length).sum := by
  intro chunks
  induction chunks with
  | nil =>
    intro a ls h
    simp only [accumLogits, Option.some.injEq] at h
    simp [← h]
  | cons b rest ih =>
    intro a ls h
    simp only [accumLogits] at h
    have := ih _ _ h
    have hb : (model (buildInputs mt b)).length = b.length := by
      rw [hm]; simp [buildInputs]
    simp only [List.length_append, hb] at this
    simp only [List.map_cons, List.sum_cons, this]
    omega

lemma accumLogits_none_len (model : Model) (mt : String)
    (hm : ∀ inp, (model inp).length = inp.input_ids.length) :
    ∀ (chunks : List (List Feature)) (ls : List (ℝ × ℝ)),
      accumLogits model mt chunks none = some ls →
      ls.length = (chunks.map List.length).sum := by
  intro chunks ls h
  cases chunks with
  | nil => simp [accumLogits] at h
  | cons b rest =>
    simp only [accumLogits] at h
    have := accumLogits_some_len model mt hm rest _ _ h
    have hb : (model (buildInputs mt b)).length = b.length := by
      rw [hm]; simp [buildInputs]
    simp only [hb] at this
    simp [List.map_cons, List.sum_cons, this]

lemma softmaxPos_nonneg (a b : ℝ) : 0 ≤ softmaxPos a b :=
  div_nonneg (Real.exp_pos b).le (by positivity)

lemma softmaxPos_le_one (a b : ℝ) : softmaxPos a b ≤ 1 := by
  unfold softmaxPos
  rw [div_le_one (by positivity)]
  exact le_add_of_nonneg_left (Real.exp_pos a).le

lemma softmax_sum_one (a b : ℝ) : softmaxPos a b + softmaxNeg a b = 1 := by
  unfold softmaxPos softmaxNeg
  rw [div_add_div_same, add_comm, div_self (by positivity)]

/-- C4: whenever `predict` returns a vector, its length equals the input
group's length, every value lies in `[0, 1]`, and the vector is the
row-wise positive-class softmax of the accumulated logits in input order,
each row's two class masses summing to 1. -/
theorem c4_engine_output (model : Model) (mt : String) (ds : List Feature) (bs : ℕ)
    (v : List ℝ) (hm : ∀ inp, (model inp).length = inp.input_ids.length)
    (h : predict model mt ds bs = some v) :
    v.length = ds.length ∧
    (∀ x ∈ v, 0 ≤ x ∧ x ≤ 1) ∧
    ∃ ls, accumLogits model mt (chunk bs ds) none = some ls ∧
      v = ls.map (fun q => softmaxPos q.1 q.2) ∧
      ∀ q ∈ ls, softmaxPos q.1 q.2 + softmaxNeg q.1 q.2 = 1 := by
  unfold predict at h
  cases ha : accumLogits model mt (chunk bs ds) none with
  | none => rw [ha] at h; exact absurd h (by simp)
  | some ls =>
    rw [ha] at h
    simp only [Option.some.injEq] at h
    have hbs : 0 < bs := by
      rcases Nat.eq_zero_or_pos bs with h0 | h0
      · subst h0; rw [chunk_zero] at ha; simp [accumLogits] at ha
      · exact h0
    refine ⟨?_, ?_, ls, rfl, h.symm, fun q _ => softmax_sum_one q.1 q.2⟩
    · rw [← h, List.length_map, accumLogits_none_len model mt hm _ _ ha,
        chunk_sum bs ds hbs]
    · intro x hx
      rw [← h] at hx
      rcases List.mem_map.mp hx with ⟨q, _, rfl⟩
      exact ⟨softmaxPos_nonneg q.1 q.2, softmaxPos_le_one q.1 q.2⟩

/-- Witness for C4 at the toy model, a one-feature group and batch size 1. -/
theorem c4_engine_output_witness :
    ([softmaxPos 0 0] : List ℝ).length = [tFeat].length ∧
    (∀ x ∈ ([softmaxPos 0 0] : List ℝ), 0 ≤ x ∧ x ≤ 1) ∧
    ∃ ls, accumLogits tModel "bert" (chunk 1 [tFeat]) none = some ls ∧
      ([softmaxPos 0 0] : List ℝ) = ls.map (fun q => softmaxPos q.1 q.2) ∧
      ∀ q ∈ ls, softmaxPos q.1 q.2 + softmaxNeg q.1 q.2 = 1 :=
  c4_engine_output tModel "bert" [tFeat] 1 [softmaxPos 0 0]
    (fun inp => by simp [tModel]) rfl

/-- C10: an empty corpus store yields two empty prediction groups, the
logits accumulator stays `None` through the batch loop, and `predict`
raises (returns no vector) instead of producing an empty vector. -/
theorem c10_empty_store_engine_fails (model : Model) (mt : String) (bs : ℕ)
    (tok : Tokenizer) (maxLen : ℕ) :
    prepare_prediction_data ([] : Store) tok maxLen = [[], []] ∧
    accumLogits model mt (chunk bs ([] : List Feature)) none = none ∧
    predict model mt ([] : List Feature) bs = none := by
  have hc : chunk bs ([] : List Feature) = [] := by
    unfold chunk
    split <;> simp [chunkFuel]
  refine ⟨?_, ?_, ?_⟩
  · rw [prepare_eq]; simp [srcFeatures, tgtFeatures]
  · rw [hc]; rfl
  · unfold predict; rw [hc]; rfl

/-- Counterexample to C5 as stated: for the non-BERT model type
(`"xlmr"`), the `token_type_ids` key is not omitted from the model
invocation — it is present (with value `None`). -/
theorem c5_counterexample :
    ¬ (buildInputs "xlmr" [tFeat]).token_type_ids = none := by decide

/-- C5 as amended: for `"xlmr"` the segment-ids entry is passed with an
explicit `None` value rather than omitted; the entry is omitted entirely
only for `"distilbert"` (a model type this script never selects), while
`"bert"` receives the batch's segment ids. -/
theorem c5_amended_token_type_ids (b : List Feature) :
    (buildInputs "xlmr" b).token_type_ids = some none ∧
    (buildInputs "distilbert" b).token_type_ids = none ∧
    (buildInputs "bert" b).token_type_ids = some (some (b.map Feature.token_type_ids)) :=
  ⟨rfl, rfl, rfl⟩

/-- C7: the feature builder returns exactly two prediction groups, the
source-language group at index 0 and the target-language group at index
1, each listing one feature per record key in key iteration order. -/
theorem c7_feature_builder (store : Store) (tok : Tokenizer) (maxLen : ℕ) :
    (prepare_prediction_data store tok maxLen).length = 2 ∧
    prepare_prediction_data store tok maxLen
      = [store.map (fun kv => featurize tok maxLen (mkSourceExample kv)),
         store.map (fun kv => featurize tok maxLen (mkTargetExample kv))] := by
  rw [prepare_eq]
  exact ⟨rfl, rfl⟩

/-! ## CachePolicy step theorems -/

/-- C1 is a code bug: for a file whose name contains neither `"arp"` nor
`"wmtp"`, the `i == 0` iteration takes the cache-reuse branch and never
invokes the inference engine.  If `preds` is still unbound it raises
`NameError` on a non-empty store (first conjunct); if `preds` holds a
vector left over from an earlier file or checkpoint (here computed at
ghost checkpoint 5 while the current checkpoint is 7), that stale vector
is silently written into the file's records (second conjunct). -/
theorem c1_untagged_source_never_computed :
    stepDirection cCtx 7 0 "other.json" 0 [] [("k1", tRec)] ⟨none, none⟩ none
      = .error .nameError ∧
    stepDirection cCtx 7 0 "other.json" 0 [] [("k1", tRec)] ⟨none, none⟩
        (some ⟨[(1 : ℝ)], 5⟩)
      = .ok ⟨[("k1", { tRec with results := [("M_source", ⟨1, 5, 7⟩)] })],
          ⟨none, none⟩, some ⟨[1], 5⟩, ⟨7, 0, 0, false, [1]⟩⟩ :=
  ⟨rfl, rfl⟩

/-- C6: the target-direction step (`i == 1`) always invokes the engine on
its own dataset, leaves both cache slots untouched, and binds `preds` to
the freshly computed vector. -/
theorem c6_target_always_fresh (c : Ctx) (k fi : ℕ) (fn : String)
    (ds : List Feature) (store : Store) (s : CacheState) (p : Option PVec)
    (o : StepOut) (h : stepDirection c k fi fn 1 ds store s p = .ok o) :
    o.caches = s ∧
    ∃ v, predict c.model c.model_type ds c.bs = some v ∧
      o.preds = some ⟨v, k⟩ ∧ o.entry = ⟨k, fi, 1, true, v⟩ := by
  unfold stepDirection at h
  rw [if_pos (Or.inl rfl)] at h
  split at h
  · simp at h
  · rename_i v hpred
    split at h
    · simp at h
    · rename_i store' hw
      simp only [Except.ok.injEq] at h
      subst h
      exact ⟨by simp, v, hpred, rfl, rfl⟩

/-- Witness for C6 at a concrete target-direction step. -/
theorem c6_target_always_fresh_witness :
    (⟨[], ⟨none, none⟩, some ⟨[softmaxPos 0 0], 3⟩,
        ⟨3, 5, 1, true, [softmaxPos 0 0]⟩⟩ : StepOut).caches
      = (⟨none, none⟩ : CacheState) ∧
    ∃ v, predict cCtx.model cCtx.model_type [tFeat] cCtx.bs = some v ∧
      (⟨[], ⟨none, none⟩, some ⟨[softmaxPos 0 0], 3⟩,
          ⟨3, 5, 1, true, [softmaxPos 0 0]⟩⟩ : StepOut).preds = some ⟨v, 3⟩ ∧
      (⟨[], ⟨none, none⟩, some ⟨[softmaxPos 0 0], 3⟩,
          ⟨3, 5, 1, true, [softmaxPos 0 0]⟩⟩ : StepOut).entry
        = ⟨3, 5, 1, true, v⟩ :=
  c6_target_always_fresh cCtx 3 5 "f" [tFeat] [] ⟨none, none⟩ none _ rfl

/-! ## ResultMerger: the write loop is purely additive on fresh names -/

lemma entryName_src_ne_tgt (m : String) : entryName m 0 ≠ entryName m 1 := by
  unfold entryName
  intro h
  have hd := congrArg String.data h
  simp only [String.data_append, List.append_cancel_left_eq, reduceIte] at hd
  exact absurd (congrArg (fun l => l.get? 1) hd) (by decide)

lemma updateField_fresh (r : List (String × RVal)) (key : String) (v : RVal)
    (h : ∀ q ∈ r, q.1 ≠ key) : updateField r key v = r ++ [(key, v)] := by
  unfold updateField
  rw [if_neg]
  simp only [List.any_eq_true, decide_eq_true_eq, not_exists, not_and]
  intro q hq
  exact h q hq

/-- Helper: applying the source write and then the target write to
zipped vectors appends exactly the two fresh fields to each record. -/
lemma merge_zip_map (metadata : String) (k c0 c1 : ℕ) :
    ∀ (store : Store) (v0 v1 : List ℝ),
      (∀ kv ∈ store, ∀ q ∈ kv.2.results,
        q.1 ≠ entryName metadata 0 ∧ q.1 ≠ entryName metadata 1) →
      ((((store.zip v0).map
          (fun q => (q.1.1, setResult q.1.2 (entryName metadata 0) ⟨q.2, c0, k⟩))).zip
            v1).map
        (fun q => (q.1.1, setResult q.1.2 (entryName metadata 1) ⟨q.2, c1, k⟩)))
      = ((store.zip v0).zip v1).map
          (fun q => (q.1.1.1,
            { q.1.1.2 with results := q.1.1.2.results ++
                [(entryName metadata 0, ⟨q.1.2, c0, k⟩),
                 (entryName metadata 1, ⟨q.2, c1, k⟩)] })) := by
  intro store
  induction store with
  | nil => intro v0 v1 _; simp
  | cons kv rest ih =>
    intro v0 v1 hfresh
    cases v0 with
    | nil => simp
    | cons x xs =>
      cases v1 with
      | nil => simp
      | cons y ys =>
        have hk := hfresh kv (by simp)
        have hrest : ∀ kv' ∈ rest, ∀ q ∈ kv'.2.results,
            q.1 ≠ entryName metadata 0 ∧ q.1 ≠ entryName metadata 1 :=
          fun kv' h' => hfresh kv' (by simp [h'])
        simp only [List.zip_cons_cons, List.map_cons, List.cons.injEq]
        refine ⟨?_, ih xs ys hrest⟩
        simp only [setResult]
        have e0 : updateField kv.2.results (entryName metadata 0) ⟨x, c0, k⟩
            = kv.2.results ++ [(entryName metadata 0, ⟨x, c0, k⟩)] :=
          updateField_fresh _ _ _ (fun q hq => (hk q hq).1)
        rw [e0]
        have e1 : updateField
            (kv.2.results ++ [(entryName metadata 0, ⟨x, c0, k⟩)])
            (entryName metadata 1) ⟨y, c1, k⟩
            = (kv.2.results ++ [(entryName metadata 0, ⟨x, c0, k⟩)])
              ++ [(entryName metadata 1, ⟨y, c1, k⟩)] := by
          refine updateField_fresh _ _ _ ?_
          intro q hq
          rcases List.mem_append.mp hq with hq | hq
          · exact (hk q hq).2
          · simp at hq
            subst hq
            exact entryName_src_ne_tgt metadata
        rw [e1]
        simp

/-- C8: merging one checkpoint's two direction vectors into a store whose
records do not yet carry the two field names leaves every record's key,
sentence fields, gold label and pre-existing result fields unchanged, and
appends exactly the two new scalar fields named by the metadata with the
`source` and `target` suffixes. -/
theorem c8_merge_additive (store : Store) (metadata : String) (pv0 pv1 : PVec)
    (k : ℕ) (st1 st2 : Store)
    (hfresh : ∀ kv ∈ store, ∀ q ∈ kv.2.results,
        q.1 ≠ entryName metadata 0 ∧ q.1 ≠ entryName metadata 1)
    (h0 : writeEntry store (entryName metadata 0) (some pv0) k = .ok st1)
    (h1 : writeEntry st1 (entryName metadata 1) (some pv1) k = .ok st2) :
    st2 = ((store.zip pv0.vec).zip pv1.vec).map
      (fun q => (q.1.1.1,
        { q.1.1.2 with results := q.1.1.2.results ++
            [(entryName metadata 0, ⟨q.1.2, pv0.computedAt, k⟩),
             (entryName metadata 1, ⟨q.2, pv1.computedAt, k⟩)] })) := by
  simp only [writeEntry] at h0 h1
  by_cases hl0 : store.length ≤ pv0.vec.length
  case neg => rw [if_neg hl0] at h0; exact absurd h0 (by simp)
  rw [if_pos hl0] at h0
  simp only [Except.ok.injEq] at h0
  subst h0
  by_cases hl1 :
      ((store.zip pv0.vec).map
        (fun q => (q.1.1, setResult q.1.2 (entryName metadata 0)
          ⟨q.2, pv0.computedAt, k⟩))).length ≤ pv1.vec.length
  case neg => rw [if_neg hl1] at h1; exact absurd h1 (by simp)
  rw [if_pos hl1] at h1
  simp only [Except.ok.injEq] at h1
  subst h1
  exact merge_zip_map metadata k pv0.computedAt pv1.computedAt store
    pv0.vec pv1.vec hfresh

/-- A record already carrying one result field from an earlier model. -/
noncomputable def w8Rec : CorpusRecord := { tRec with results := [("old", ⟨2, 0, 0⟩)] }

/-- A one-record store for the merge witness. -/
noncomputable def w8Store : Store := [("k1", w8Rec)]

/-- Witness for C8: merging concrete source/target vectors into a record
that already has an unrelated `"old"` field. -/
theorem c8_merge_additive_witness :
    ([("k1", { tRec with results := [("old", ⟨2, 0, 0⟩), ("M_source", ⟨5, 3, 9⟩),
        ("M_target", ⟨7, 4, 9⟩)] })] : Store)
      = ((w8Store.zip (PVec.mk [5] 3).vec).zip (PVec.mk [7] 4).vec).map
          (fun q => (q.1.1.1,
            { q.1.1.2 with results := q.1.1.2.results ++
                [(entryName "M" 0, ⟨q.1.2, (PVec.mk [5] 3).computedAt, 9⟩),
                 (entryName "M" 1, ⟨q.2, (PVec.mk [7] 4).computedAt, 9⟩)] })) :=
  c8_merge_additive w8Store "M" ⟨[5], 3⟩ ⟨[7], 4⟩ 9
    [("k1", { tRec with results := [("old", ⟨2, 0, 0⟩), ("M_source", ⟨5, 3, 9⟩)] })]
    [("k1", { tRec with results := [("old", ⟨2, 0, 0⟩), ("M_source", ⟨5, 3, 9⟩),
        ("M_target", ⟨7, 4, 9⟩)] })]
    (by
      intro kv hkv q hq
      simp only [w8Store, List.mem_singleton] at hkv
      subst hkv
      simp only [w8Rec, tRec, List.mem_singleton] at hq
      subst hq
      exact ⟨by decide, by decide⟩)
    rfl rfl

/-! ## Checkpoint-name parsing is fatal for the whole run -/

lemma findML_contains (l : List Char) (d : Char) (ds : List Char)
    (h : findML l = some (d :: ds)) : containsMLDigit l = true := by
  induction l with
  | nil => simp [findML] at h
  | cons c cs ih =>
    unfold findML at h
    by_cases hs : startsWithL ['M', 'L'] (c :: cs) = true
    · rw [if_pos hs] at h
      simp only [Option.some.injEq] at h
      unfold containsMLDigit
      rw [hs]
      cases hd : cs.drop 1 with
      | nil => rw [hd] at h; simp at h
      | cons a t =>
        rw [hd] at h
        unfold List.takeWhile at h
        by_cases ha : a.isDigit = true
        · rw [ha] at h
          simp only [List.cons.injEq] at h
          simp [ha]
        · simp only [Bool.not_eq_true] at ha
          rw [ha] at h
          simp at h
    · simp only [Bool.not_eq_true] at hs
      rw [hs] at h
      simp only [Bool.false_eq_true, if_false] at h
      unfold containsMLDigit
      rw [ih h, hs]
      simp

lemma parse_ok_contains (md : String) (n : ℕ)
    (h : parseMaxSeqLength md = .ok n) : containsMLDigit md.data = true := by
  unfold parseMaxSeqLength at h
  cases hf : findML md.data with
  | none => rw [hf] at h; exact absurd h (by simp)
  | some ds =>
    cases ds with
    | nil => rw [hf] at h; exact absurd h (by simp)
    | cons d t => exact findML_contains md.data d t hf

lemma cpLoop_bad_cp (loadModel : String → Model) (loadTok : String → Tokenizer)
    (bs : ℕ) (cp : String) (rest : List String)
    (hbad : containsMLDigit (metadataOf cp).data = false) :
    ∀ (pre : List String) (k : ℕ) (fs : List FileEntry) (p : Option PVec)
      (log : List LogEntry) (out : RunOut),
      cpLoop loadModel loadTok bs k (pre ++ cp :: rest) fs p log ≠ .ok out := by
  intro pre
  induction pre with
  | nil =>
    intro k fs p log out h
    simp only [List.nil_append, cpLoop] at h
    cases hpc : processCheckpoint loadModel loadTok bs k cp fs p log with
    | error e => rw [hpc] at h; simp at h
    | ok o =>
      simp only [processCheckpoint] at hpc
      cases hml : parseMaxSeqLength (metadataOf cp) with
      | error e => rw [hml] at hpc; simp at hpc
      | ok n => rw [parse_ok_contains (metadataOf cp) n hml] at hbad; simp at hbad
  | cons c pre' ih =>
    intro k fs p log out h
    simp only [List.cons_append, cpLoop] at h
    cases hpc : processCheckpoint loadModel loadTok bs k c fs p log with
    | error e => rw [hpc] at h; simp at h
    | ok o =>
      rw [hpc] at h
      exact ih (k + 1) o.files o.preds o.log out h

/-- C9: a checkpoint directory name (the metadata component of the
checkpoint path) that does not contain `"ML"` followed by a digit makes
the run fail: no run containing such a checkpoint, at any position, can
finish successfully — the regex/`int` failure aborts everything. -/
theorem c9_bad_checkpoint_name_aborts (loadModel : String → Model)
    (loadTok : String → Tokenizer) (bs : ℕ) (pre : List String) (cp : String)
    (rest : List String) (fs : List FileEntry)
    (hbad : containsMLDigit (metadataOf cp).data = false) :
    ∀ out, runAll loadModel loadTok bs (pre ++ cp :: rest) fs ≠ .ok out := by
  intro out
  unfold runAll
  exact cpLoop_bad_cp loadModel loadTok bs cp rest hbad pre 0 fs none [] out

/-- Witness for C9: a single checkpoint whose directory name `"plain"`
lacks the pattern, with no input files at all. -/
theorem c9_bad_checkpoint_name_aborts_witness :
    runAll (fun _ => tModel) (fun _ => tTok) 1 ["x/plain/y"] [] ≠ .ok ⟨[], none, []⟩ :=
  c9_bad_checkpoint_name_aborts (fun _ => tModel) (fun _ => tTok) 1 [] "x/plain/y" [] []
    (by decide) ⟨[], none, []⟩

/-! ## Cache isolation across checkpoints (ghost provenance invariant) -/

/-- The engine on an empty prediction group fails (shared helper). -/
lemma predict_nil (model : Model) (mt : String) (bs : ℕ) :
    predict model mt ([] : List Feature) bs = none := by
  have hc : chunk bs ([] : List Feature) = [] := by
    unfold chunk; split <;> simp [chunkFuel]
  unfold predict
  rw [hc]
  rfl

/-- A bound probability vector was computed under checkpoint `k`. -/
def pvOk (k : ℕ) (p : Option PVec) : Prop :=
  ∀ pv, p = some pv → pv.computedAt = k

/-- Both cache slots hold only vectors computed under checkpoint `k`. -/
def cachesOk (k : ℕ) (s : CacheState) : Prop :=
  pvOk k s.wmt_source_cache ∧ pvOk k s.ar_source_cache

/-- Every result field of the record was written during the same
checkpoint iteration that computed its value. -/
def recOk (r : CorpusRecord) : Prop :=
  ∀ q ∈ r.results, q.2.computedAt = q.2.writtenAt

/-- Every record of the store satisfies `recOk`. -/
def storeOk (st : Store) : Prop :=
  ∀ kv ∈ st, recOk kv.2

/-- Every file's store satisfies `storeOk`. -/
def filesOk (fs : List FileEntry) : Prop :=
  ∀ f ∈ fs, storeOk f.store

/-- The filename carries one of the two caching tags. -/
def tagged (fn : String) : Bool :=
  containsSub "arp" fn || containsSub "wmtp" fn

/-- The first file of the list (if any) carries a caching tag. -/
def headTagged : List FileEntry → Prop
  | [] => False
  | f :: _ => tagged f.name = true

lemma pvOk_none (k : ℕ) : pvOk k none := fun pv h => by cases h

lemma pvOk_some (k : ℕ) (v : List ℝ) : pvOk k (some ⟨v, k⟩) :=
  fun pv h => by cases h; rfl

lemma mem_updateField (r : List (String × RVal)) (key : String) (v : RVal)
    (q : String × RVal) (hq : q ∈ updateField r key v) : q ∈ r ∨ q = (key, v) := by
  unfold updateField at hq
  split at hq
  · rcases List.mem_map.mp hq with ⟨a, ha, hqa⟩
    by_cases h : a.1 = key
    · rw [if_pos h] at hqa; right; exact hqa.symm
    · rw [if_neg h] at hqa; left; rw [← hqa]; exact ha
  · rcases List.mem_append.mp hq with h | h
    · left; exact h
    · right; simpa using h

lemma writeEntry_storeOk (store : Store) (entry : String) (p : Option PVec)
    (k : ℕ) (st' : Store) (hst : storeOk store) (hp : pvOk k p)
    (h : writeEntry store entry p k = .ok st') : storeOk st' := by
  cases p with
  | none =>
    simp only [writeEntry] at h
    split at h
    · simp only [Except.ok.injEq] at h; subst h; exact hst
    · simp at h
  | some pv =>
    simp only [writeEntry] at h
    split at h
    case isFalse => simp at h
    simp only [Except.ok.injEq] at h
    subst h
    intro kv hkv
    rcases List.mem_map.mp hkv with ⟨a, ha, rfl⟩
    intro q hq
    simp only [setResult] at hq
    rcases mem_updateField _ _ _ q hq with hmem | rfl
    · exact hst a.1 (List.of_mem_zip ha).1 q hmem
    · exact hp pv rfl

lemma stepDirection_compute (c : Ctx) (k fi : ℕ) (fn : String) (i : ℕ)
    (ds : List Feature) (store : Store) (s : CacheState) (p : Option PVec)
    (o : StepOut) (h : stepDirection c k fi fn i ds store s p = .ok o)
    (hcond : i = 1 ∨ (containsSub "arp" fn ∧ s.ar_source_cache.isNone)
      ∨ (containsSub "wmtp" fn ∧ s.wmt_source_cache.isNone))
    (hs : cachesOk k s) (hst : storeOk store) :
    cachesOk k o.caches ∧ pvOk k o.preds ∧ storeOk o.store := by
  unfold stepDirection at h
  rw [if_pos hcond] at h
  split at h
  · simp at h
  · rename_i v hpred
    split at h
    · simp at h
    · rename_i store' hw
      simp only [Except.ok.injEq] at h
      subst h
      refine ⟨?_, pvOk_some k v, writeEntry_storeOk store _ _ k store' hst (pvOk_some k v) hw⟩
      simp only
      split
      · split
        · exact ⟨hs.1, pvOk_some k v⟩
        · split
          · exact ⟨pvOk_some k v, hs.2⟩
          · exact hs
      · exact hs

lemma stepDirection_reuse (c : Ctx) (k fi : ℕ) (fn : String) (i : ℕ)
    (ds : List Feature) (store : Store) (s : CacheState) (p : Option PVec)
    (o : StepOut) (h : stepDirection c k fi fn i ds store s p = .ok o)
    (hcond : ¬ (i = 1 ∨ (containsSub "arp" fn ∧ s.ar_source_cache.isNone)
      ∨ (containsSub "wmtp" fn ∧ s.wmt_source_cache.isNone)))
    (hs : cachesOk k s) (hp : pvOk k p) (hst : storeOk store) :
    cachesOk k o.caches ∧ pvOk k o.preds ∧ storeOk o.store := by
  unfold stepDirection at h
  rw [if_neg hcond] at h
  have hpok : pvOk k (if containsSub "arp" fn then s.ar_source_cache
      else if containsSub "wmtp" fn then s.wmt_source_cache else p) := by
    split
    · exact hs.2
    · split
      · exact hs.1
      · exact hp
  split at h
  · simp at h
  · rename_i store' hw
    simp only [Except.ok.injEq] at h
    subst h
    exact ⟨hs, hpok, writeEntry_storeOk store _ _ k store' hst hpok hw⟩

lemma stepDirection_inv (c : Ctx) (k fi : ℕ) (fn : String) (i : ℕ)
    (ds : List Feature) (store : Store) (s : CacheState) (p : Option PVec)
    (o : StepOut) (h : stepDirection c k fi fn i ds store s p = .ok o)
    (hs : cachesOk k s) (hp : pvOk k p) (hst : storeOk store) :
    cachesOk k o.caches ∧ pvOk k o.preds ∧ storeOk o.store := by
  by_cases hcond : i = 1 ∨ (containsSub "arp" fn ∧ s.ar_source_cache.isNone)
      ∨ (containsSub "wmtp" fn ∧ s.wmt_source_cache.isNone)
  · exact stepDirection_compute c k fi fn i ds store s p o h hcond hs hst
  · exact stepDirection_reuse c k fi fn i ds store s p o h hcond hs hp hst

lemma stepDirection_head (c : Ctx) (k fi : ℕ) (fn : String)
    (ds : List Feature) (store : Store) (p : Option PVec) (o : StepOut)
    (h : stepDirection c k fi fn 0 ds store ⟨none, none⟩ p = .ok o)
    (hst : storeOk store) (hcase : tagged fn = true ∨ p = none) :
    cachesOk k o.caches ∧ pvOk k o.preds ∧ storeOk o.store := by
  have hs : cachesOk k ⟨none, none⟩ := ⟨pvOk_none k, pvOk_none k⟩
  by_cases hcond : (0 : ℕ) = 1 ∨
      (containsSub "arp" fn ∧ (Option.isNone (none : Option PVec)))
      ∨ (containsSub "wmtp" fn ∧ (Option.isNone (none : Option PVec)))
  · exact stepDirection_compute c k fi fn 0 ds store ⟨none, none⟩ p o h hcond hs hst
  · rcases hcase with htag | hnone
    · exfalso
      apply hcond
      simp only [Option.isNone_none] at *
      rcases Bool.or_eq_true_iff.mp htag with ha | hw
      · exact Or.inr (Or.inl ⟨ha, trivial⟩)
      · exact Or.inr (Or.inr ⟨hw, trivial⟩)
    · subst hnone
      exact stepDirection_reuse c k fi fn 0 ds store ⟨none, none⟩ none o h hcond hs
        (pvOk_none k) hst

lemma dirLoop_inv (c : Ctx) (k fi : ℕ) (fn : String) :
    ∀ (dss : List (List Feature)) (i : ℕ) (store : Store) (s : CacheState)
      (p : Option PVec) (log : List LogEntry) (o : DirOut),
      dirLoop c k fi fn i dss store s p log = .ok o →
      cachesOk k s → pvOk k p → storeOk store →
      cachesOk k o.caches ∧ pvOk k o.preds ∧ storeOk o.store := by
  intro dss
  induction dss with
  | nil =>
    intro i store s p log o h hs hp hst
    unfold dirLoop at h
    simp only [Except.ok.injEq] at h
    subst h
    exact ⟨hs, hp, hst⟩
  | cons ds rest ih =>
    intro i store s p log o h hs hp hst
    unfold dirLoop at h
    split at h
    · simp at h
    · rename_i o1 hstep
      have h1 := stepDirection_inv c k fi fn i ds store s p o1 hstep hs hp hst
      exact ih (i + 1) o1.store o1.caches o1.preds (log ++ [o1.entry]) o h
        h1.1 h1.2.1 h1.2.2

lemma processFile_inv (c : Ctx) (tok : Tokenizer) (maxLen k fi : ℕ)
    (f : FileEntry) (s : CacheState) (p : Option PVec) (log : List LogEntry)
    (o : FileOut) (h : processFile c tok maxLen k fi f s p log = .ok o)
    (hs : cachesOk k s) (hp : pvOk k p) (hst : storeOk f.store) :
    cachesOk k o.caches ∧ pvOk k o.preds ∧ storeOk o.file.store ∧
      o.file.name = f.name := by
  unfold processFile at h
  split at h
  · simp at h
  · rename_i d hd
    have hi := dirLoop_inv c k fi f.name _ 0 f.store s p log d hd hs hp hst
    simp only [Except.ok.injEq] at h
    subst h
    exact ⟨hi.1, hi.2.1, hi.2.2, rfl⟩

lemma processFile_head (c : Ctx) (tok : Tokenizer) (maxLen k fi : ℕ)
    (f : FileEntry) (p : Option PVec) (log : List LogEntry) (o : FileOut)
    (h : processFile c tok maxLen k fi f ⟨none, none⟩ p log = .ok o)
    (hst : storeOk f.store) (hcase : tagged f.name = true ∨ p = none) :
    cachesOk k o.caches ∧ pvOk k o.preds ∧ storeOk o.file.store ∧
      o.file.name = f.name := by
  unfold processFile at h
  split at h
  · simp at h
  · rename_i d hd
    rw [prepare_eq] at hd
    unfold dirLoop at hd
    split at hd
    · simp at hd
    · rename_i o0 hstep0
      have h0 := stepDirection_head c k fi f.name _ f.store p o0 hstep0 hst hcase
      unfold dirLoop at hd
      split at hd
      · simp at hd
      · rename_i o1 hstep1
        have h1 := stepDirection_inv c k fi f.name (0 + 1) _ o0.store o0.caches
          o0.preds o1 hstep1 h0.1 h0.2.1 h0.2.2
        unfold dirLoop at hd
        simp only [Except.ok.injEq] at hd
        subst hd
        simp only [Except.ok.injEq] at h
        subst h
        exact ⟨h1.1, h1.2.1, h1.2.2, rfl⟩

lemma processFile_untagged_none (c : Ctx) (tok : Tokenizer) (maxLen k fi : ℕ)
    (f : FileEntry) (log : List LogEntry) (o : FileOut)
    (h : processFile c tok maxLen k fi f ⟨none, none⟩ none log = .ok o)
    (htag : tagged f.name = false) : False := by
  have harp : containsSub "arp" f.name = false :=
    (Bool.or_eq_false_iff.mp htag).1
  have hwm : containsSub "wmtp" f.name = false :=
    (Bool.or_eq_false_iff.mp htag).2
  unfold processFile at h
  split at h
  · simp at h
  · rename_i d hd
    rw [prepare_eq] at hd
    unfold dirLoop at hd
    split at hd
    · simp at hd
    · rename_i o0 hstep0
      unfold stepDirection at hstep0
      rw [if_neg (by simp [harp, hwm])] at hstep0
      simp only [harp, hwm, Bool.false_eq_true, if_false] at hstep0
      cases hstore : f.store with
      | cons kv rest =>
        rw [hstore] at hstep0
        simp [writeEntry] at hstep0
      | nil =>
        rw [hstore] at hstep0
        simp only [writeEntry, List.isEmpty_nil, if_true] at hstep0
        simp only [Except.ok.injEq] at hstep0
        subst hstep0
        have htgt : ∀ (st : Store) (cs : CacheState) (pp : Option PVec),
            stepDirection c k fi f.name (0 + 1)
              (tgtFeatures f.store tok maxLen) st cs pp = .error .typeError := by
          intro st cs pp
          unfold stepDirection
          rw [if_pos (Or.inl rfl), hstore]
          have hmap : tgtFeatures ([] : Store) tok maxLen = [] := by
            simp [tgtFeatures]
          rw [hmap, predict_nil]
        unfold dirLoop at hd
        rw [htgt] at hd
        simp at hd

lemma fileLoop_inv (c : Ctx) (tok : Tokenizer) (maxLen k : ℕ) :
    ∀ (fs : List FileEntry) (fi : ℕ) (done : List FileEntry) (s : CacheState)
      (p : Option PVec) (log : List LogEntry) (out : CPOut),
      fileLoop c tok maxLen k fi fs done s p log = .ok out →
      cachesOk k s → pvOk k p → filesOk fs → filesOk done →
      filesOk out.files ∧ pvOk k out.preds ∧ ∃ tl, out.files = done ++ tl := by
  intro fs
  induction fs with
  | nil =>
    intro fi done s p log out h hs hp hfs hdone
    unfold fileLoop at h
    simp only [Except.ok.injEq] at h
    subst h
    exact ⟨hdone, hp, [], by simp⟩
  | cons f rest ih =>
    intro fi done s p log out h hs hp hfs hdone
    unfold fileLoop at h
    split at h
    · simp at h
    · rename_i o1 hpf
      have hf := processFile_inv c tok maxLen k fi f s p log o1 hpf hs hp
        (hfs f (by simp))
      have hrest : filesOk rest := fun g hg => hfs g (by simp [hg])
      have hdone' : filesOk (done ++ [o1.file]) := by
        intro g hg
        rcases List.mem_append.mp hg with hg | hg
        · exact hdone g hg
        · simp only [List.mem_singleton] at hg
          subst hg
          exact hf.2.2.1
      have hr := ih (fi + 1) (done ++ [o1.file]) o1.caches o1.preds o1.log out h
        hf.1 hf.2.1 hrest hdone'
      refine ⟨hr.1, hr.2.1, ?_⟩
      rcases hr.2.2 with ⟨tl, htl⟩
      exact ⟨[o1.file] ++ tl, by simp [htl]⟩

lemma processCheckpoint_inv (L : String → Model) (T : String → Tokenizer)
    (bs k : ℕ) (cp : String) (fs : List FileEntry) (p : Option PVec)
    (log : List LogEntry) (o : CPOut)
    (h : processCheckpoint L T bs k cp fs p log = .ok o)
    (hfs : filesOk fs) (hcase : p = none ∨ headTagged fs) :
    filesOk o.files ∧ (o.preds = none ∨ headTagged o.files) := by
  simp only [processCheckpoint] at h
  split at h
  · simp at h
  · rename_i maxLen hml
    cases fs with
    | nil =>
      unfold fileLoop at h
      simp only [Except.ok.injEq] at h
      subst h
      refine ⟨fun f hf => absurd hf (by simp), ?_⟩
      rcases hcase with hnone | ht
      · exact Or.inl hnone
      · cases ht
    | cons f rest =>
      unfold fileLoop at h
      split at h
      · simp at h
      · rename_i o1 hpf
        by_cases htag : tagged f.name = true
        · have hh := processFile_head _ _ _ k _ f p log o1 hpf
            (hfs f (by simp)) (Or.inl htag)
          have hrest : filesOk rest := fun g hg => hfs g (by simp [hg])
          have hdone : filesOk [o1.file] := by
            intro g hg
            simp only [List.mem_singleton] at hg
            subst hg
            exact hh.2.2.1
          have hfl := fileLoop_inv _ _ _ k rest _ [o1.file] o1.caches o1.preds
            o1.log o h hh.1 hh.2.1 hrest hdone
          refine ⟨hfl.1, Or.inr ?_⟩
          rcases hfl.2.2 with ⟨tl, htl⟩
          rw [htl]
          show tagged o1.file.name = true
          rw [hh.2.2.2]
          exact htag
        · rcases hcase with hnone | ht
          · subst hnone
            exact absurd hpf
              (fun hpf' => processFile_untagged_none _ _ _ k _ f log o1 hpf'
                (Bool.not_eq_true _ ▸ Bool.of_not_eq_true htag))
          · exact absurd ht htag

lemma cpLoop_inv (L : String → Model) (T : String → Tokenizer) (bs : ℕ) :
    ∀ (cps : List String) (k : ℕ) (fs : List FileEntry) (p : Option PVec)
      (log : List LogEntry) (out : RunOut),
      cpLoop L T bs k cps fs p log = .ok out →
      filesOk fs → (p = none ∨ headTagged fs) → filesOk out.files := by
  intro cps
  induction cps with
  | nil =>
    intro k fs p log out h hfs _
    unfold cpLoop at h
    simp only [Except.ok.injEq] at h
    subst h
    exact hfs
  | cons cp rest ih =>
    intro k fs p log out h hfs hcase
    unfold cpLoop at h
    split at h
    · simp at h
    · rename_i o hpc
      have hc := processCheckpoint_inv L T bs k cp fs p log o hpc hfs hcase
      exact ih (k + 1) o.files o.preds o.log out h hc.1 hc.2

/-- C3: both cache slots are reset to `None` on entry to each checkpoint
iteration (lines 192-193, literal in `processCheckpoint`), and as a
consequence every probability value stored in any file of a successful
run carries matching ghost tags: it was computed by the model of the very
checkpoint during which it was written — a vector computed under one
checkpoint is never reused under another. -/
theorem c3_checkpoint_cache_isolation (L : String → Model)
    (T : String → Tokenizer) (bs : ℕ) (cps : List String)
    (fs : List FileEntry) (out : RunOut)
    (h : runAll L T bs cps fs = .ok out) (hfs : filesOk fs) :
    filesOk out.files := by
  unfold runAll at h
  exact cpLoop_inv L T bs cps 0 fs none [] out h hfs (Or.inl rfl)

/-- Witness for C3: a one-checkpoint, one-file run evaluated concretely. -/
theorem c3_checkpoint_cache_isolation_witness :
    filesOk ([⟨"wmtp", [("k", { tRec with results :=
        [("ML1_source", ⟨softmaxPos 0 0, 0, 0⟩),
         ("ML1_target", ⟨softmaxPos 0 0, 0, 0⟩)] })]⟩] : List FileEntry) :=
  c3_checkpoint_cache_isolation (fun _ => tModel) (fun _ => tTok) 1 ["m/ML1/x"]
    [⟨"wmtp", [("k", tRec)]⟩]
    ⟨[⟨"wmtp", [("k", { tRec with results :=
        [("ML1_source", ⟨softmaxPos 0 0, 0, 0⟩),
         ("ML1_target", ⟨softmaxPos 0 0, 0, 0⟩)] })]⟩],
      some ⟨[softmaxPos 0 0], 0⟩,
      [⟨0, 0, 0, true, [softmaxPos 0 0]⟩, ⟨0, 0, 1, true, [softmaxPos 0 0]⟩]⟩
    rfl
    (by
      intro f hf
      simp only [List.mem_singleton] at hf
      subst hf
      intro kv hkv
      simp only [List.mem_singleton] at hkv
      subst hkv
      intro q hq
      simp [tRec] at hq)

/-! ## C2 machinery: cache persistence, the ghost log, and loop splitting -/

lemma stepDirection_entry (c : Ctx) (k fi : ℕ) (fn : String) (i : ℕ)
    (ds : List Feature) (store : Store) (s : CacheState) (p : Option PVec)
    (o : StepOut) (h : stepDirection c k fi fn i ds store s p = .ok o) :
    o.entry.cp = k ∧ o.entry.fileIdx = fi ∧ o.entry.dir = i := by
  unfold stepDirection at h
  split at h
  · split at h
    · simp at h
    · split at h
      · simp at h
      · simp only [Except.ok.injEq] at h
        subst h
        exact ⟨rfl, rfl, rfl⟩
  · split at h
    · simp at h
    · simp only [Except.ok.injEq] at h
      subst h
      exact ⟨rfl, rfl, rfl⟩

lemma stepDirection_wmt_nowmtp (c : Ctx) (k fi : ℕ) (fn : String) (i : ℕ)
    (ds : List Feature) (store : Store) (s : CacheState) (p : Option PVec)
    (o : StepOut) (h : stepDirection c k fi fn i ds store s p = .ok o)
    (hwm : containsSub "wmtp" fn = false) :
    o.caches.wmt_source_cache = s.wmt_source_cache := by
  unfold stepDirection at h
  split at h
  · split at h
    · simp at h
    · split at h
      · simp at h
      · simp only [Except.ok.injEq] at h
        subst h
        simp only
        split
        · split
          · rfl
          · rw [if_neg (by simp [hwm])]
        · rfl
  · split at h
    · simp at h
    · simp only [Except.ok.injEq] at h
      subst h
      rfl

lemma stepDirection_wmt_some (c : Ctx) (k fi : ℕ) (fn : String) (i : ℕ)
    (ds : List Feature) (store : Store) (s : CacheState) (p : Option PVec)
    (pv : PVec) (o : StepOut) (h : stepDirection c k fi fn i ds store s p = .ok o)
    (hwmt : s.wmt_source_cache = some pv) :
    o.caches.wmt_source_cache = some pv := by
  unfold stepDirection at h
  split at h
  case isTrue hcond =>
    split at h
    · simp at h
    · split at h
      · simp at h
      · simp only [Except.ok.injEq] at h
        subst h
        simp only
        split
        case isTrue hi =>
          split
          · rw [hwmt]
          · split
            case isTrue harp hwm =>
              exfalso
              rcases hcond with h1 | ⟨ha, _⟩ | ⟨_, hn⟩
              · omega
              · exact harp ha
              · rw [hwmt] at hn
                simp at hn
            case isFalse => rw [hwmt]
        · rw [hwmt]
  · split at h
    · simp at h
    · simp only [Except.ok.injEq] at h
      subst h
      rw [hwmt]

lemma dirLoop_wmt_nowmtp (c : Ctx) (k fi : ℕ) (fn : String)
    (hwm : containsSub "wmtp" fn = false) :
    ∀ (dss : List (List Feature)) (i : ℕ) (store : Store) (s : CacheState)
      (p : Option PVec) (log : List LogEntry) (o : DirOut),
      dirLoop c k fi fn i dss store s p log = .ok o →
      o.caches.wmt_source_cache = s.wmt_source_cache := by
  intro dss
  induction dss with
  | nil =>
    intro i store s p log o h
    unfold dirLoop at h
    simp only [Except.ok.injEq] at h
    subst h
    rfl
  | cons ds rest ih =>
    intro i store s p log o h
    unfold dirLoop at h
    split at h
    · simp at h
    · rename_i o1 hstep
      rw [ih (i + 1) o1.store o1.caches o1.preds (log ++ [o1.entry]) o h]
      exact stepDirection_wmt_nowmtp c k fi fn i ds store s p o1 hstep hwm

lemma dirLoop_wmt_some (c : Ctx) (k fi : ℕ) (fn : String) (pv : PVec) :
    ∀ (dss : List (List Feature)) (i : ℕ) (store : Store) (s : CacheState)
      (p : Option PVec) (log : List LogEntry) (o : DirOut),
      dirLoop c k fi fn i dss store s p log = .ok o →
      s.wmt_source_cache = some pv →
      o.caches.wmt_source_cache = some pv := by
  intro dss
  induction dss with
  | nil =>
    intro i store s p log o h hs
    unfold dirLoop at h
    simp only [Except.ok.injEq] at h
    subst h
    exact hs
  | cons ds rest ih =>
    intro i store s p log o h hs
    unfold dirLoop at h
    split at h
    · simp at h
    · rename_i o1 hstep
      exact ih (i + 1) o1.store o1.caches o1.preds (log ++ [o1.entry]) o h
        (stepDirection_wmt_some c k fi fn i ds store s p pv o1 hstep hs)

lemma processFile_wmt_nowmtp (c : Ctx) (tok : Tokenizer) (maxLen k fi : ℕ)
    (f : FileEntry) (s : CacheState) (p : Option PVec) (log : List LogEntry)
    (o : FileOut) (h : processFile c tok maxLen k fi f s p log = .ok o)
    (hwm : containsSub "wmtp" f.name = false) :
    o.caches.wmt_source_cache = s.wmt_source_cache := by
  unfold processFile at h
  split at h
  · simp at h
  · rename_i d hd
    simp only [Except.ok.injEq] at h
    subst h
    exact dirLoop_wmt_nowmtp c k fi f.name hwm _ 0 f.store s p log d hd

lemma processFile_wmt_some (c : Ctx) (tok : Tokenizer) (maxLen k fi : ℕ)
    (f : FileEntry) (s : CacheState) (p : Option PVec) (log : List LogEntry)
    (pv : PVec) (o : FileOut) (h : processFile c tok maxLen k fi f s p log = .ok o)
    (hs : s.wmt_source_cache = some pv) :
    o.caches.wmt_source_cache = some pv := by
  unfold processFile at h
  split at h
  · simp at h
  · rename_i d hd
    simp only [Except.ok.injEq] at h
    subst h
    exact dirLoop_wmt_some c k fi f.name pv _ 0 f.store s p log d hd hs

lemma fileLoop_wmt_nofiles (c : Ctx) (tok : Tokenizer) (maxLen k : ℕ) :
    ∀ (fs : List FileEntry) (fi : ℕ) (done : List FileEntry) (s : CacheState)
      (p : Option PVec) (log : List LogEntry) (out : CPOut),
      fileLoop c tok maxLen k fi fs done s p log = .ok out →
      (∀ g ∈ fs, containsSub "wmtp" g.name = false) →
      out.caches.wmt_source_cache = s.wmt_source_cache := by
  intro fs
  induction fs with
  | nil =>
    intro fi done s p log out h _
    unfold fileLoop at h
    simp only [Except.ok.injEq] at h
    subst h
    rfl
  | cons f rest ih =>
    intro fi done s p log out h hfs
    unfold fileLoop at h
    split at h
    · simp at h
    · rename_i o1 hpf
      rw [ih (fi + 1) (done ++ [o1.file]) o1.caches o1.preds o1.log out h
        (fun g hg => hfs g (by simp [hg]))]
      exact processFile_wmt_nowmtp c tok maxLen k fi f s p log o1 hpf
        (hfs f (by simp))

lemma fileLoop_wmt_some (c : Ctx) (tok : Tokenizer) (maxLen k : ℕ) (pv : PVec) :
    ∀ (fs : List FileEntry) (fi : ℕ) (done : List FileEntry) (s : CacheState)
      (p : Option PVec) (log : List LogEntry) (out : CPOut),
      fileLoop c tok maxLen k fi fs done s p log = .ok out →
      s.wmt_source_cache = some pv →
      out.caches.wmt_source_cache = some pv := by
  intro fs
  induction fs with
  | nil =>
    intro fi done s p log out h hs
    unfold fileLoop at h
    simp only [Except.ok.injEq] at h
    subst h
    exact hs
  | cons f rest ih =>
    intro fi done s p log out h hs
    unfold fileLoop at h
    split at h
    · simp at h
    · rename_i o1 hpf
      exact ih (fi + 1) (done ++ [o1.file]) o1.caches o1.preds o1.log out h
        (processFile_wmt_some c tok maxLen k fi f s p log pv o1 hpf hs)

lemma dirLoop_log (c : Ctx) (k fi : ℕ) (fn : String) :
    ∀ (dss : List (List Feature)) (i : ℕ) (store : Store) (s : CacheState)
      (p : Option PVec) (log : List LogEntry) (o : DirOut),
      dirLoop c k fi fn i dss store s p log = .ok o →
      ∃ new, o.log = log ++ new ∧ ∀ e ∈ new, e.fileIdx = fi := by
  intro dss
  induction dss with
  | nil =>
    intro i store s p log o h
    unfold dirLoop at h
    simp only [Except.ok.injEq] at h
    subst h
    exact ⟨[], by simp, by simp⟩
  | cons ds rest ih =>
    intro i store s p log o h
    unfold dirLoop at h
    split at h
    · simp at h
    · rename_i o1 hstep
      rcases ih (i + 1) o1.store o1.caches o1.preds (log ++ [o1.entry]) o h with
        ⟨new, hnew, hidx⟩
      refine ⟨o1.entry :: new, by simp [hnew], ?_⟩
      intro e he
      rcases List.mem_cons.mp he with rfl | he
      · exact (stepDirection_entry c k fi fn i ds store s p o1 hstep).2.1
      · exact hidx e he

lemma processFile_log (c : Ctx) (tok : Tokenizer) (maxLen k fi : ℕ)
    (f : FileEntry) (s : CacheState) (p : Option PVec) (log : List LogEntry)
    (o : FileOut) (h : processFile c tok maxLen k fi f s p log = .ok o) :
    ∃ new, o.log = log ++ new ∧ ∀ e ∈ new, e.fileIdx = fi := by
  unfold processFile at h
  split at h
  · simp at h
  · rename_i d hd
    simp only [Except.ok.injEq] at h
    subst h
    exact dirLoop_log c k fi f.name _ 0 f.store s p log d hd

lemma fileLoop_log_range (c : Ctx) (tok : Tokenizer) (maxLen k : ℕ) :
    ∀ (fs : List FileEntry) (fi : ℕ) (done : List FileEntry) (s : CacheState)
      (p : Option PVec) (log : List LogEntry) (out : CPOut),
      fileLoop c tok maxLen k fi fs done s p log = .ok out →
      ∃ new, out.log = log ++ new ∧
        ∀ e ∈ new, fi ≤ e.fileIdx ∧ e.fileIdx < fi + fs.length := by
  intro fs
  induction fs with
  | nil =>
    intro fi done s p log out h
    unfold fileLoop at h
    simp only [Except.ok.injEq] at h
    subst h
    exact ⟨[], by simp, by simp⟩
  | cons f rest ih =>
    intro fi done s p log out h
    unfold fileLoop at h
    split at h
    · simp at h
    · rename_i o1 hpf
      rcases processFile_log c tok maxLen k fi f s p log o1 hpf with
        ⟨new1, hnew1, hidx1⟩
      rcases ih (fi + 1) (done ++ [o1.file]) o1.caches o1.preds o1.log out h with
        ⟨new2, hnew2, hidx2⟩
      refine ⟨new1 ++ new2, by simp [hnew2, hnew1], ?_⟩
      intro e he
      rcases List.mem_append.mp he with he | he
      · have := hidx1 e he
        simp only [List.length_cons]
        omega
      · have := hidx2 e he
        simp only [List.length_cons]
        omega

lemma fileLoop_split (c : Ctx) (tok : Tokenizer) (maxLen k : ℕ) :
    ∀ (xs ys : List FileEntry) (fi : ℕ) (done : List FileEntry) (s : CacheState)
      (p : Option PVec) (log : List LogEntry),
      fileLoop c tok maxLen k fi (xs ++ ys) done s p log
        = match fileLoop c tok maxLen k fi xs done s p log with
          | .error e => .error e
          | .ok o => fileLoop c tok maxLen k (fi + xs.length) ys o.files o.caches
              o.preds o.log := by
  intro xs
  induction xs with
  | nil =>
    intro ys fi done s p log
    simp only [List.nil_append, List.length_nil, Nat.add_zero]
    rfl
  | cons f xs' ih =>
    intro ys fi done s p log
    cases hpf : processFile c tok maxLen k fi f s p log with
    | error e => simp only [List.cons_append, fileLoop, hpf]
    | ok o1 =>
      simp only [List.cons_append, fileLoop, hpf, List.length_cons, List.append_eq]
      rw [ih ys (fi + 1) (done ++ [o1.file]) o1.caches o1.preds o1.log]
      cases hfl : fileLoop c tok maxLen k (fi + 1) xs' (done ++ [o1.file])
          o1.caches o1.preds o1.log with
      | error e => simp only [hfl]
      | ok o2 =>
        simp only [hfl]
        have harith : fi + 1 + xs'.length = fi + (xs'.length + 1) := by omega
        rw [harith]

lemma stepDirection_i1_caches (c : Ctx) (k fi : ℕ) (fn : String)
    (ds : List Feature) (store : Store) (s : CacheState) (p : Option PVec)
    (o : StepOut) (h : stepDirection c k fi fn 1 ds store s p = .ok o) :
    o.caches = s := by
  unfold stepDirection at h
  rw [if_pos (Or.inl rfl)] at h
  split at h
  · simp at h
  · rename_i v hpred
    split at h
    · simp at h
    · rename_i st' hw
      simp only [Except.ok.injEq] at h
      subst h
      simp

lemma processFile_wmtp_first (c : Ctx) (tok : Tokenizer) (maxLen k fi : ℕ)
    (f : FileEntry) (s : CacheState) (p : Option PVec) (log : List LogEntry)
    (o : FileOut) (h : processFile c tok maxLen k fi f s p log = .ok o)
    (hwm : containsSub "wmtp" f.name = true)
    (harp : containsSub "arp" f.name = false)
    (hnone : s.wmt_source_cache = none) :
    ∃ v, predict c.model c.model_type (srcFeatures f.store tok maxLen) c.bs
        = some v ∧
      o.caches.wmt_source_cache = some ⟨v, k⟩ ∧
      ∃ e1, o.log = log ++ [⟨k, fi, 0, true, v⟩, e1] ∧ e1.dir = 1 := by
  unfold processFile at h
  split at h
  · simp at h
  · rename_i d hd
    rw [prepare_eq] at hd
    unfold dirLoop at hd
    split at hd
    · simp at hd
    · rename_i o0 hstep0
      unfold stepDirection at hstep0
      rw [if_pos (by simp [harp, hwm, hnone])] at hstep0
      split at hstep0
      · simp at hstep0
      · rename_i v hpred
        split at hstep0
        · simp at hstep0
        · rename_i st' hw
          simp only [Except.ok.injEq] at hstep0
          subst hstep0
          unfold dirLoop at hd
          split at hd
          · simp at hd
          · rename_i o1 hstep1
            have hc1 : o1.caches = (if (0 : ℕ) = 0 then
                if containsSub "arp" f.name then
                  { s with ar_source_cache := some ⟨v, k⟩ }
                else if containsSub "wmtp" f.name then
                  { s with wmt_source_cache := some ⟨v, k⟩ }
                else s
              else s) :=
              stepDirection_i1_caches c k fi f.name _ _ _ _ o1 hstep1
            have he1 := stepDirection_entry c k fi f.name (0 + 1) _ _ _ _ o1 hstep1
            unfold dirLoop at hd
            simp only [Except.ok.injEq] at hd
            subst hd
            simp only [Except.ok.injEq] at h
            subst h
            refine ⟨v, hpred, ?_, o1.entry, by simp, he1.2.2⟩
            simp only [hc1]
            simp [harp, hwm]

lemma processFile_wmtp_cached (c : Ctx) (tok : Tokenizer) (maxLen k fi : ℕ)
    (f : FileEntry) (s : CacheState) (p : Option PVec) (log : List LogEntry)
    (pv : PVec) (o : FileOut)
    (h : processFile c tok maxLen k fi f s p log = .ok o)
    (hwm : containsSub "wmtp" f.name = true)
    (harp : containsSub "arp" f.name = false)
    (hcache : s.wmt_source_cache = some pv) :
    ∃ e1, o.log = log ++ [⟨k, fi, 0, false, pv.vec⟩, e1] ∧ e1.dir = 1 := by
  unfold processFile at h
  split at h
  · simp at h
  · rename_i d hd
    rw [prepare_eq] at hd
    unfold dirLoop at hd
    split at hd
    · simp at hd
    · rename_i o0 hstep0
      unfold stepDirection at hstep0
      rw [if_neg (by simp [harp, hwm, hcache])] at hstep0
      rw [if_neg (by simp [harp]), if_pos (by simp [hwm]), hcache] at hstep0
      split at hstep0
      · simp at hstep0
      · rename_i st' hw
        simp only [Except.ok.injEq] at hstep0
        subst hstep0
        unfold dirLoop at hd
        split at hd
        · simp at hd
        · rename_i o1 hstep1
          have he1 := stepDirection_entry c k fi f.name (0 + 1) _ _ _ _ o1 hstep1
          unfold dirLoop at hd
          simp only [Except.ok.injEq] at hd
          subst hd
          simp only [Except.ok.injEq] at h
          subst h
          exact ⟨o1.entry, by simp [vecOf], he1.2.2⟩

/-- C2 as amended: under one checkpoint, for two files whose names contain
`"wmtp"` and not `"arp"`, where no file before the first one is
`"wmtp"`-tagged (so the cache slot is empty when the first is reached),
the source-direction step of the first file invokes the engine on its own
source group producing `v`, and the source-direction step of the second
file does not invoke the engine and writes exactly the cached `v`. -/
theorem c2_amended_wmtp_cache_reuse (L : String → Model) (T : String → Tokenizer)
    (bs k : ℕ) (cp : String) (A B C : List FileEntry) (f1 f2 : FileEntry)
    (p0 : Option PVec) (out : CPOut)
    (h : processCheckpoint L T bs k cp (A ++ f1 :: (B ++ f2 :: C)) p0 [] = .ok out)
    (hA : ∀ g ∈ A, containsSub "wmtp" g.name = false)
    (h1w : containsSub "wmtp" f1.name = true)
    (h1a : containsSub "arp" f1.name = false)
    (h2w : containsSub "wmtp" f2.name = true)
    (h2a : containsSub "arp" f2.name = false) :
    ∃ maxLen, parseMaxSeqLength (metadataOf cp) = .ok maxLen ∧
    ∃ v, predict (L cp)
        (if containsSub "xlm-roberta" (metadataOf cp) then "xlmr" else "bert")
        (srcFeatures f1.store (T cp) maxLen) bs = some v ∧
      (⟨k, A.length, 0, true, v⟩ : LogEntry) ∈ out.log ∧
      (⟨k, A.length + 1 + B.length, 0, false, v⟩ : LogEntry) ∈ out.log ∧
      ∀ e ∈ out.log, e.fileIdx = A.length + 1 + B.length → e.dir = 0 →
        e.invoked = false ∧ e.written = v := by
  simp only [processCheckpoint] at h
  split at h
  · simp at h
  · rename_i maxLen hml
    refine ⟨maxLen, hml, ?_⟩
    rw [fileLoop_split] at h
    split at h
    · simp at h
    · rename_i oA hAeq
      have hwA : oA.caches.wmt_source_cache = none :=
        fileLoop_wmt_nofiles _ _ _ k A 0 [] ⟨none, none⟩ p0 [] oA hAeq hA
      rcases fileLoop_log_range _ _ _ k A 0 [] ⟨none, none⟩ p0 [] oA hAeq with
        ⟨newA, hnA, hrA⟩
      simp only [Nat.zero_add] at h
      unfold fileLoop at h
      split at h
      · simp at h
      · rename_i o1 hpf1
        rcases processFile_wmtp_first _ _ _ k _ f1 oA.caches oA.preds oA.log o1
          hpf1 h1w h1a hwA with ⟨v, hpred, hcach1, e1, hlog1, he1dir⟩
        refine ⟨v, hpred, ?_⟩
        rw [fileLoop_split] at h
        split at h
        · simp at h
        · rename_i oB hBeq
          have hwB : oB.caches.wmt_source_cache = some ⟨v, k⟩ :=
            fileLoop_wmt_some _ _ _ k ⟨v, k⟩ B _ _ o1.caches o1.preds o1.log oB
              hBeq hcach1
          rcases fileLoop_log_range _ _ _ k B (A.length + 1) (oA.files ++ [o1.file])
            o1.caches o1.preds o1.log oB hBeq with ⟨newB, hnB, hrB⟩
          unfold fileLoop at h
          split at h
          · simp at h
          · rename_i o2 hpf2
            rcases processFile_wmtp_cached _ _ _ k _ f2 oB.caches oB.preds oB.log
              ⟨v, k⟩ o2 hpf2 h2w h2a hwB with ⟨e2, hlog2, he2dir⟩
            rcases fileLoop_log_range _ _ _ k C (A.length + 1 + B.length + 1)
              (oB.files ++ [o2.file]) o2.caches o2.preds o2.log out h with
              ⟨newC, hnC, hrC⟩
            have hout : out.log
                = newA ++ ([⟨k, A.length, 0, true, v⟩] ++ ([e1] ++ (newB ++
                    ([(⟨k, A.length + 1 + B.length, 0, false, v⟩ : LogEntry)] ++
                      ([e2] ++ newC))))) := by
              rw [hnC, hlog2, hnB, hlog1, hnA]
              simp
            refine ⟨?_, ?_, ?_⟩
            · rw [hout]
              simp
            · rw [hout]
              simp
            · intro e he hfi hdir
              rw [hout] at he
              simp only [List.mem_append, List.mem_singleton] at he
              rcases he with he | he | he | he | he | he | he
              · have := hrA e he
                omega
              · subst he
                simp only at hfi
                omega
              · subst he
                rw [hdir] at he1dir
                exact absurd he1dir (by simp)
              · have := hrB e he
                omega
              · subst he
                exact ⟨rfl, rfl⟩
              · subst he
                rw [hdir] at he2dir
                exact absurd he2dir (by simp)
              · have := hrC e he
                omega

/-- Counterexample to C2 as stated: both input files' names contain the
`"wmtp"` tag (`"wmtp_a"` and `"wmtp_arp_b"`), yet the run's ghost log
records `invoked = true` for the second file's source direction (the
entry with file index 1 and direction 0): because the second name also
contains `"arp"` and the `"arp"` cache slot is empty, the conditional at
line 203 re-invokes the inference engine instead of reusing the cached
vector. -/
theorem c2_counterexample :
    (runAll (fun _ => tModel) (fun _ => tTok) 1 ["m/ML1/x"]
        [⟨"wmtp_a", [("k", tRec)]⟩, ⟨"wmtp_arp_b", [("k", tRec)]⟩]).map
      (fun o => o.log.map (fun e => (e.fileIdx, e.dir, e.invoked)))
      = .ok [(0, 0, true), (0, 1, true), (1, 0, true), (1, 1, true)] := rfl

/-- The record of the C2 witness files after the run. -/
noncomputable def w2Rec : CorpusRecord :=
  { tRec with results := [("ML1_source", ⟨softmaxPos 0 0, 0, 0⟩),
                          ("ML1_target", ⟨softmaxPos 0 0, 0, 0⟩)] }

/-- The checkpoint output of the C2 witness run. -/
noncomputable def w2Out : CPOut :=
  ⟨[⟨"wmtp", [("k", w2Rec)]⟩, ⟨"wmtpb", [("k", w2Rec)]⟩],
   ⟨some ⟨[softmaxPos 0 0], 0⟩, none⟩,
   some ⟨[softmaxPos 0 0], 0⟩,
   [⟨0, 0, 0, true, [softmaxPos 0 0]⟩, ⟨0, 0, 1, true, [softmaxPos 0 0]⟩,
    ⟨0, 1, 0, false, [softmaxPos 0 0]⟩, ⟨0, 1, 1, true, [softmaxPos 0 0]⟩]⟩

/-- Witness for the amended C2 at a concrete two-file checkpoint run. -/
theorem c2_amended_wmtp_cache_reuse_witness :
    ∃ maxLen, parseMaxSeqLength (metadataOf "m/ML1/x") = .ok maxLen ∧
    ∃ v, predict tModel "bert" (srcFeatures [("k", tRec)] tTok maxLen) 1
        = some v ∧
      (⟨0, 0, 0, true, v⟩ : LogEntry) ∈ w2Out.log ∧
      (⟨0, 1, 0, false, v⟩ : LogEntry) ∈ w2Out.log ∧
      ∀ e ∈ w2Out.log, e.fileIdx = 1 → e.dir = 0 →
        e.invoked = false ∧ e.written = v :=
  c2_amended_wmtp_cache_reuse (fun _ => tModel) (fun _ => tTok) 1 0 "m/ML1/x"
    [] [] [] ⟨"wmtp", [("k", tRec)]⟩ ⟨"wmtpb", [("k", tRec)]⟩ none w2Out
    rfl
    (by intro g hg; simp at hg)
    (by decide) (by decide) (by decide) (by decide)
